import Mathlib

/-!
Verification of the microunit test framework (src/microunit.h, src/sample.cpp).

The embedding translates the registration-and-execution core:
- `UnitFunctionResult` is the per-case result record (field `success`, default true).
- A unit test function receives a result record and mutates it; the embedding
  models it as a function from the record to the updated record.
- The catalog is the `std::map<std::string, UnitFunction>` backing store,
  embedded as an association list kept sorted by key; `mapEmplace` models
  `std::map::emplace` (insert if the key is absent, otherwise a no-op).
- `runLoop`, `summaryLines` and `Run` translate `UnitTester::Run` line by line,
  exposing the returned boolean, the collected failure list and the lines
  printed to standard output.
- The macro bodies PASS, FAIL, ASSERT_TRUE, ASSERT_FALSE are embedded as a
  small statement language `Stmt` with early-return execution `exec`, over an
  arbitrary local-state type standing for the client logic of a test body.
-/

namespace Microunit

/-- Result of a unit test: struct `UnitFunctionResult` with a single boolean
field `success` brace-initialized to true. -/
structure UnitFunctionResult where
  success : Bool := true
deriving DecidableEq

/-- Unit test function type `void(*)(UnitFunctionResult*)`: the function
receives the result record through a pointer and may mutate it, so it is
embedded as a map from the record passed in to the record after the call. -/
abbrev UnitFunction : Type := UnitFunctionResult → UnitFunctionResult

/-- The backing store `std::map<std::string, UnitFunction>` of the singleton,
embedded as an association list sorted by key. -/
abbrev Catalog : Type := List (String × UnitFunction)

/-- The 80-dash separator MICROUNIT_SEPARATOR. -/
def MICROUNIT_SEPARATOR : String :=
  "--------------------------------------------------------------------------------"

/-- The fresh result the driver constructs before each call:
`UnitFunctionResult result;` leaves `success` at its default true. -/
def freshResult : UnitFunctionResult := {}

/-- The per-case loop of `UnitTester::Run`: for each registered entry, print a
separator and a begin-of-case marker, construct a fresh result, invoke the
function, print the outcome line, and record the name when the case failed.
Returns the printed lines and the collected failure list. -/
def runLoop : Catalog → List String × List String
  | [] => ([], [])
  | (name, f) :: rest =>
      let result := f freshResult
      (MICROUNIT_SEPARATOR
         :: ("[    ] Test case \x27" ++ name ++ "\x27")
         :: (if result.success then "[    ] Success" else "[!!!!] Failure")
         :: (runLoop rest).1,
       if result.success then (runLoop rest).2 else name :: (runLoop rest).2)

/-- The summary block of `UnitTester::Run`: the all-tests-passed message when
the failure list is empty, otherwise the failed-count header followed by one
line per failing case name, each block ending with a separator. -/
def summaryLines (failures : List String) : List String :=
  if failures.isEmpty then
    ["[    ] All tests passed", MICROUNIT_SEPARATOR]
  else
    ("[!!!!] Failed " ++ toString failures.length ++ " test cases:")
      :: failures.map (fun f => "> " ++ f) ++ [MICROUNIT_SEPARATOR]

/-- `UnitTester::Run` over a given catalog. The C++ function returns only the
boolean; the embedding also exposes the collected failure list and the full
list of lines printed to standard output, in order, as observables: the
returned triple is (returned boolean, failure list, printed lines). -/
def Run (catalog : Catalog) : Bool × List String × List String :=
  ((runLoop catalog).2.isEmpty,
   (runLoop catalog).2,
   (runLoop catalog).1
     ++ MICROUNIT_SEPARATOR :: MICROUNIT_SEPARATOR
     :: summaryLines (runLoop catalog).2)

/-- The failure list `Run` collects over a catalog. -/
def failuresOf (catalog : Catalog) : List String := (runLoop catalog).2

/-- The per-case outcomes the driver observes: for each entry in loop order,
the case name paired with the success flag of the result record after the
call on a fresh result, exactly what the per-case outcome line prints. -/
def caseOutcomes : Catalog → List (String × Bool)
  | [] => []
  | (name, f) :: rest => (name, (f freshResult).success) :: caseOutcomes rest

/-- The order in which the loop of `Run` visits (and therefore executes) the
registered cases: the key of each entry, in iteration order. -/
def runOrder : Catalog → List String
  | [] => []
  | (name, _) :: rest => name :: runOrder rest

/-- `std::map::emplace` on the sorted association list: insert `(name, f)` at
its ordered position when no entry with key `name` exists, otherwise leave
the map unchanged (the existing entry is retained, nothing is reported). -/
def mapEmplace : Catalog → String → UnitFunction → Catalog
  | [], name, f => [(name, f)]
  | (k, v) :: rest, name, f =>
      if name < k then (name, f) :: (k, v) :: rest
      else if name = k then (k, v) :: rest
      else (k, v) :: mapEmplace rest name f

/-- `UnitTester::RegisterFunction`: emplace the pair into the backing map. -/
def RegisterFunction (m : Catalog) (name : String) (f : UnitFunction) : Catalog :=
  mapEmplace m name f

/-- The catalog produced by a sequence of registrations performed in order on
the initially empty singleton map, as the static `Registrator` objects do. -/
def buildCatalog (regs : List (String × UnitFunction)) : Catalog :=
  regs.foldl (fun m r => RegisterFunction m r.1 r.2) []

/-- The `UnitTester` singleton state: its only data member is the backing
map `unitfunction_map_`. -/
structure UnitTester where
  unitfunction_map_ : Catalog

/-- `UnitTester::Run` as a transition on the singleton state: the loop only
reads the map (`for (auto& unit : Instance().unitfunction_map_)`); no
statement of `Run` writes to the singleton, so the state component of the
embedding is exactly the map the source reads. -/
def RunST (t : UnitTester) : (Bool × List String × List String) × UnitTester :=
  (Run t.unitfunction_map_, t)

/-- Lookup by key in the association-list map, as `std::map::find`. -/
def lookupMap : Catalog → String → Option UnitFunction
  | [], _ => none
  | (k, v) :: rest, name => if name = k then some v else lookupMap rest name

/-- Number of entries of the map carrying a given key. -/
def countKey (m : Catalog) (name : String) : Nat :=
  (m.filter (fun u => u.1 == name)).length

/-- Keys of the association-list map are strictly increasing, the invariant
`std::map` maintains. -/
def keysSorted (m : Catalog) : Prop :=
  List.Pairwise (fun a b : String × UnitFunction => a.1 < b.1) m

/-- Statement language for a test case body. `action` is arbitrary client
logic over the local state of the body; the other constructors are the four
macros: PASS and FAIL set the success flag and return from the body;
ASSERT_TRUE fails and returns when its condition is false at evaluation
time; ASSERT_FALSE fails and returns when its condition is true. -/
inductive Stmt (σ : Type) where
  | action (f : σ → σ)
  | pass
  | fail
  | assertTrue (cond : σ → Bool)
  | assertFalse (cond : σ → Bool)

/-- Outcome of running a list of statements: either control fell off the end
of the list (`finished`) or a macro returned early (`returned`); both carry
the local state and the result record at that point. -/
inductive Outcome (σ : Type) where
  | finished (s : σ) (r : UnitFunctionResult)
  | returned (s : σ) (r : UnitFunctionResult)
deriving DecidableEq

/-- The result record an outcome carries. -/
def Outcome.result {σ : Type} : Outcome σ → UnitFunctionResult
  | .finished _ r => r
  | .returned _ r => r

/-- Execution of a test body: statements run in order over the local state
and the result record passed in by the driver; PASS and FAIL overwrite the
success flag and return immediately; a violated assert prints a diagnostic
and performs FAIL; a satisfied assert has no effect. -/
def exec {σ : Type} : List (Stmt σ) → σ → UnitFunctionResult → Outcome σ
  | [], s, r => .finished s r
  | .action f :: rest, s, r => exec rest (f s) r
  | .pass :: _, s, _ => .returned s ⟨true⟩
  | .fail :: _, s, _ => .returned s ⟨false⟩
  | .assertTrue cond :: rest, s, r =>
      if cond s then exec rest s r else .returned s ⟨false⟩
  | .assertFalse cond :: rest, s, r =>
      if cond s then .returned s ⟨false⟩ else exec rest s r

/-- The unit test function a body defines: run the statements from the given
initial local state on the record handed in by the driver, and hand back the
record as it stands when the body returns. -/
def bodyFun {σ : Type} (stmts : List (Stmt σ)) (init : σ) : UnitFunction :=
  fun r => (exec stmts init r).result

/-- Whether a statement is plain client logic (not one of the four macros). -/
def Stmt.isAction {σ : Type} : Stmt σ → Bool
  | .action _ => true
  | _ => false

/-! ### Helper lemmas -/

/-- Executing a concatenated body: the second part runs exactly when the
first part fell off its end, from the state and record the first part left;
an early return in the first part is the result of the whole body. -/
theorem exec_append {σ : Type} (l1 l2 : List (Stmt σ)) (s : σ) (r : UnitFunctionResult) :
    exec (l1 ++ l2) s r =
      match exec l1 s r with
      | .finished s2 r2 => exec l2 s2 r2
      | .returned s2 r2 => .returned s2 r2 := by
  induction l1 generalizing s r with
  | nil => rfl
  | cons stmt rest ih =>
      cases stmt with
      | action f => simpa [exec] using ih (f s) r
      | pass => rfl
      | fail => rfl
      | assertTrue cond =>
          by_cases h : cond s = true
          · simp [exec, h, ih]
          · simp [exec, h]
      | assertFalse cond =>
          by_cases h : cond s = true
          · simp [exec, h]
          · simp [exec, h, ih]

/-- A body of plain client logic never touches the result record. -/
theorem exec_actions {σ : Type} (stmts : List (Stmt σ))
    (h : ∀ stmt ∈ stmts, stmt.isAction = true) (s : σ) (r : UnitFunctionResult) :
    (exec stmts s r).result = r := by
  induction stmts generalizing s with
  | nil => rfl
  | cons stmt rest ih =>
      cases stmt with
      | action f => exact ih (fun t ht => h t (List.mem_cons_of_mem _ ht)) (f s)
      | pass => exact absurd (h _ (List.mem_cons_self _ _)) (by simp [Stmt.isAction])
      | fail => exact absurd (h _ (List.mem_cons_self _ _)) (by simp [Stmt.isAction])
      | assertTrue cond => exact absurd (h _ (List.mem_cons_self _ _)) (by simp [Stmt.isAction])
      | assertFalse cond => exact absurd (h _ (List.mem_cons_self _ _)) (by simp [Stmt.isAction])

/-- The failure list the loop collects is exactly the names of the entries
whose function leaves the success flag false, in iteration order. -/
theorem runLoop_failures (catalog : Catalog) :
    (runLoop catalog).2
      = (catalog.filter (fun u => !(u.2 freshResult).success)).map Prod.fst := by
  induction catalog with
  | nil => rfl
  | cons u rest ih =>
      obtain ⟨name, f⟩ := u
      by_cases h : (f freshResult).success = true
      · simp [runLoop, h, List.filter_cons, ih]
      · simp only [Bool.not_eq_true] at h
        simp [runLoop, h, List.filter_cons, ih]

/-- The loop over a concatenation of catalogs collects the concatenation of
the failure lists: earlier cases have no effect on later ones. -/
theorem runLoop_failures_append (pre post : Catalog) :
    (runLoop (pre ++ post)).2 = (runLoop pre).2 ++ (runLoop post).2 := by
  induction pre with
  | nil => rfl
  | cons u rest ih =>
      obtain ⟨name, f⟩ := u
      by_cases h : (f freshResult).success = true <;> simp [runLoop, h, ih]

/-- Each per-case outcome is a function of that entry alone. -/
theorem caseOutcomes_eq_map (c : Catalog) :
    caseOutcomes c = c.map (fun u => (u.1, (u.2 freshResult).success)) := by
  induction c with
  | nil => rfl
  | cons u rest ih => obtain ⟨name, f⟩ := u; simp [caseOutcomes, ih]

/-- The loop visits entries in list order, so the execution order is the key
of each entry in turn. -/
theorem runOrder_eq_map (c : Catalog) : runOrder c = c.map Prod.fst := by
  induction c with
  | nil => rfl
  | cons u rest ih => obtain ⟨name, f⟩ := u; simp [runOrder, ih]

/-- A successful lookup names an entry of the map. -/
theorem lookupMap_mem (m : Catalog) (name : String) (w : UnitFunction)
    (h : lookupMap m name = some w) : (name, w) ∈ m := by
  induction m with
  | nil => exact absurd h (by simp [lookupMap])
  | cons u rest ih =>
      obtain ⟨k, v⟩ := u
      rw [lookupMap] at h
      by_cases he : name = k
      · rw [if_pos he] at h
        obtain rfl := he
        obtain rfl : v = w := Option.some.inj h
        exact List.mem_cons_self _ _
      · rw [if_neg he] at h
        exact List.mem_cons_of_mem _ (ih h)

/-- Emplacing an absent key makes it present, bound to the given function. -/
theorem lookupMap_mapEmplace_absent (m : Catalog) (name : String) (f : UnitFunction)
    (h : lookupMap m name = none) :
    lookupMap (mapEmplace m name f) name = some f := by
  induction m with
  | nil => simp [mapEmplace, lookupMap]
  | cons u rest ih =>
      obtain ⟨k, v⟩ := u
      rw [lookupMap] at h
      by_cases he : name = k
      · rw [if_pos he] at h; exact absurd h (by simp)
      · rw [if_neg he] at h
        by_cases hlt : name < k
        · simp [mapEmplace, hlt, lookupMap]
        · simp [mapEmplace, hlt, he, lookupMap, ih h]

/-- The count over a cons: one more when the head carries the key. -/
theorem countKey_cons (k : String) (v : UnitFunction) (rest : Catalog) (name : String) :
    countKey ((k, v) :: rest) name
      = (if (k == name) = true then 1 else 0) + countKey rest name := by
  cases hb : (k == name) <;> simp [countKey, List.filter_cons, hb, Nat.add_comm]

/-- An absent key has no entry in the map. -/
theorem countKey_eq_zero (m : Catalog) (name : String)
    (h : lookupMap m name = none) : countKey m name = 0 := by
  induction m with
  | nil => rfl
  | cons u rest ih =>
      obtain ⟨k, v⟩ := u
      rw [lookupMap] at h
      by_cases he : name = k
      · rw [if_pos he] at h; exact absurd h (by simp)
      · rw [if_neg he] at h
        have hk : (k == name) = false := by
          simp only [beq_eq_false_iff_ne]; exact fun hh => he hh.symm
        rw [countKey_cons, hk, ih h]
        simp

/-- Emplacing an absent key yields exactly one entry for it. -/
theorem countKey_mapEmplace (m : Catalog) (name : String) (f : UnitFunction)
    (h : lookupMap m name = none) :
    countKey (mapEmplace m name f) name = 1 := by
  induction m with
  | nil => rw [mapEmplace, countKey_cons]; simp [countKey]
  | cons u rest ih =>
      obtain ⟨k, v⟩ := u
      rw [lookupMap] at h
      by_cases he : name = k
      · rw [if_pos he] at h; exact absurd h (by simp)
      · rw [if_neg he] at h
        have hk : (k == name) = false := by
          simp only [beq_eq_false_iff_ne]; exact fun hh => he hh.symm
        by_cases hlt : name < k
        · have h0 : countKey ((k, v) :: rest) name = 0 :=
            countKey_eq_zero _ _ (by rw [lookupMap, if_neg he]; exact h)
          rw [mapEmplace, if_pos hlt, countKey_cons, h0]
          simp
        · rw [mapEmplace, if_neg hlt, if_neg he, countKey_cons, hk, ih h]
          simp

/-- Every entry of the emplaced map is the new pair or an old entry. -/
theorem mapEmplace_mem (m : Catalog) (name : String) (f : UnitFunction) :
    ∀ x ∈ mapEmplace m name f, x = (name, f) ∨ x ∈ m := by
  induction m with
  | nil => intro x hx; simp [mapEmplace] at hx; exact Or.inl hx
  | cons u rest ih =>
      obtain ⟨k, v⟩ := u
      intro x hx
      by_cases hlt : name < k
      · rw [mapEmplace, if_pos hlt] at hx
        rcases List.mem_cons.mp hx with h1 | h2
        · exact Or.inl h1
        · exact Or.inr h2
      · by_cases he : name = k
        · rw [mapEmplace, if_neg hlt, if_pos he] at hx
          exact Or.inr hx
        · rw [mapEmplace, if_neg hlt, if_neg he] at hx
          rcases List.mem_cons.mp hx with h1 | h2
          · exact Or.inr (List.mem_cons.mpr (Or.inl h1))
          · rcases ih x h2 with h3 | h4
            · exact Or.inl h3
            · exact Or.inr (List.mem_cons.mpr (Or.inr h4))

/-- Emplace preserves the strictly-increasing-keys invariant of the map. -/
theorem keysSorted_mapEmplace (m : Catalog) (name : String) (f : UnitFunction)
    (hs : keysSorted m) : keysSorted (mapEmplace m name f) := by
  induction m with
  | nil => exact List.pairwise_singleton _ _
  | cons u rest ih =>
      obtain ⟨k, v⟩ := u
      rw [keysSorted, List.pairwise_cons] at hs
      obtain ⟨hhead, htail⟩ := hs
      by_cases hlt : name < k
      · rw [mapEmplace, if_pos hlt]
        rw [keysSorted, List.pairwise_cons]
        constructor
        · intro b hb
          rcases List.mem_cons.mp hb with h1 | h2
          · obtain rfl := h1; exact hlt
          · exact lt_trans hlt (hhead b h2)
        · rw [List.pairwise_cons]; exact ⟨hhead, htail⟩
      · by_cases he : name = k
        · rw [mapEmplace, if_neg hlt, if_pos he]
          rw [keysSorted, List.pairwise_cons]; exact ⟨hhead, htail⟩
        · rw [mapEmplace, if_neg hlt, if_neg he]
          have hk : k < name := lt_of_le_of_ne (le_of_not_lt hlt) (Ne.symm he)
          rw [keysSorted, List.pairwise_cons]
          constructor
          · intro b hb
            rcases mapEmplace_mem rest name f b hb with h1 | h2
            · obtain rfl := h1; exact hk
            · exact hhead b h2
          · exact ih htail

/-- Emplacing a key already present in a sorted map changes nothing. -/
theorem mapEmplace_present (m : Catalog) (name : String) (g w : UnitFunction)
    (hs : keysSorted m) (h : lookupMap m name = some w) :
    mapEmplace m name g = m := by
  induction m with
  | nil => exact absurd h (by simp [lookupMap])
  | cons u rest ih =>
      obtain ⟨k, v⟩ := u
      rw [keysSorted, List.pairwise_cons] at hs
      obtain ⟨hhead, htail⟩ := hs
      rw [lookupMap] at h
      by_cases he : name = k
      · have hnlt : ¬name < k := by rw [he]; exact lt_irrefl k
        rw [mapEmplace, if_neg hnlt, if_pos he]
      · rw [if_neg he] at h
        have hmem : (name, w) ∈ rest := lookupMap_mem rest name w h
        have hkname : k < name := hhead (name, w) hmem
        have hnlt : ¬name < k := not_lt_of_gt hkname
        rw [mapEmplace, if_neg hnlt, if_neg he]
        rw [ih htail h]

/-- Registration starting from any sorted map keeps the keys sorted. -/
theorem keysSorted_foldl (regs : List (String × UnitFunction)) :
    ∀ acc : Catalog, keysSorted acc →
      keysSorted (regs.foldl (fun m r => RegisterFunction m r.1 r.2) acc) := by
  induction regs with
  | nil => intro acc h; exact h
  | cons r rest ih =>
      intro acc h
      exact ih _ (keysSorted_mapEmplace _ _ _ h)

/-- The catalog the static registrations build is sorted by key. -/
theorem keysSorted_buildCatalog (regs : List (String × UnitFunction)) :
    keysSorted (buildCatalog regs) :=
  keysSorted_foldl regs [] List.Pairwise.nil

/-! ### Claims -/

/-- Claim C1: for every catalog, Run returns true exactly when no executed
case recorded a failure; the reported failure list is exactly the names of
the cases whose result was failure, and the reported count matches. -/
theorem claim_C1 (catalog : Catalog) :
    ((Run catalog).1 = true ↔ ∀ u ∈ catalog, (u.2 freshResult).success = true) ∧
    (Run catalog).2.1
      = (catalog.filter (fun u => !(u.2 freshResult).success)).map Prod.fst ∧
    (Run catalog).2.1.length
      = (catalog.filter (fun u => !(u.2 freshResult).success)).length := by
  have hfail := runLoop_failures catalog
  refine ⟨?_, hfail, ?_⟩
  · show (runLoop catalog).2.isEmpty = true ↔ _
    rw [hfail]
    simp [List.isEmpty_iff, List.filter_eq_nil_iff]
  · show (runLoop catalog).2.length = _
    rw [hfail, List.length_map]

/-- Claim C2: registering twice under one name leaves exactly one entry for
that name, bound to the function registered first; the second registration
is a no-op with no error surfaced, so a run of the catalog behaves as if
only the first registration happened. -/
theorem claim_C2 (m : Catalog) (name : String) (f g : UnitFunction)
    (hs : keysSorted m) (habs : lookupMap m name = none) :
    RegisterFunction (RegisterFunction m name f) name g = RegisterFunction m name f ∧
    countKey (RegisterFunction (RegisterFunction m name f) name g) name = 1 ∧
    lookupMap (RegisterFunction (RegisterFunction m name f) name g) name = some f ∧
    Run (RegisterFunction (RegisterFunction m name f) name g)
      = Run (RegisterFunction m name f) := by
  have h1 : lookupMap (mapEmplace m name f) name = some f :=
    lookupMap_mapEmplace_absent m name f habs
  have hnoop : mapEmplace (mapEmplace m name f) name g = mapEmplace m name f :=
    mapEmplace_present _ name g f (keysSorted_mapEmplace m name f hs) h1
  refine ⟨hnoop, ?_, ?_, ?_⟩
  · show countKey (mapEmplace (mapEmplace m name f) name g) name = 1
    rw [hnoop]
    exact countKey_mapEmplace m name f habs
  · show lookupMap (mapEmplace (mapEmplace m name f) name g) name = some f
    rw [hnoop]; exact h1
  · show Run (mapEmplace (mapEmplace m name f) name g) = Run (mapEmplace m name f)
    rw [hnoop]

/-- Witness for claim C2: the two hypotheses hold at the empty map, the name
A and two concrete functions. -/
theorem claim_C2_witness :
    RegisterFunction (RegisterFunction ([] : Catalog) "A" (fun r => r)) "A"
        (fun _ => ⟨false⟩)
      = RegisterFunction ([] : Catalog) "A" (fun r => r) ∧
    countKey (RegisterFunction (RegisterFunction ([] : Catalog) "A" (fun r => r)) "A"
        (fun _ => ⟨false⟩)) "A" = 1 ∧
    lookupMap (RegisterFunction (RegisterFunction ([] : Catalog) "A" (fun r => r)) "A"
        (fun _ => ⟨false⟩)) "A" = some (fun r => r) ∧
    Run (RegisterFunction (RegisterFunction ([] : Catalog) "A" (fun r => r)) "A"
        (fun _ => ⟨false⟩))
      = Run (RegisterFunction ([] : Catalog) "A" (fun r => r)) :=
  claim_C2 [] "A" (fun r => r) (fun _ => ⟨false⟩) List.Pairwise.nil rfl

/-- Claim C3: when control reaches a conditional assert whose expected
polarity is violated, the case returns right there with a failure result:
the statements after the assert are absent from the outcome, the local
state stays as it was at the assert, and the recorded result is failure. -/
theorem claim_C3 {σ : Type} (pre rest1 rest2 : List (Stmt σ)) (c1 c2 : σ → Bool)
    (s0 s : σ) (r : UnitFunctionResult)
    (hpre : exec pre s0 freshResult = .finished s r)
    (h1 : c1 s = false) (h2 : c2 s = true) :
    exec (pre ++ Stmt.assertTrue c1 :: rest1) s0 freshResult
      = Outcome.returned s ⟨false⟩ ∧
    exec (pre ++ Stmt.assertFalse c2 :: rest2) s0 freshResult
      = Outcome.returned s ⟨false⟩ ∧
    (exec (pre ++ Stmt.assertTrue c1 :: rest1) s0 freshResult).result.success = false := by
  refine ⟨?_, ?_, ?_⟩ <;> rw [exec_append, hpre] <;>
    simp [exec, h1, h2, Outcome.result]

/-- Witness for claim C3: a body incrementing a counter, then asserting a
false condition of each polarity, then incrementing again; the tail
increment never runs. -/
theorem claim_C3_witness :
    exec ([Stmt.action (fun n => n + 1)]
        ++ Stmt.assertTrue (fun _ => false) :: [Stmt.action (fun n => n + 5)])
        (0 : Nat) freshResult
      = Outcome.returned 1 ⟨false⟩ ∧
    exec ([Stmt.action (fun n => n + 1)]
        ++ Stmt.assertFalse (fun _ => true) :: [Stmt.action (fun n => n + 5)])
        (0 : Nat) freshResult
      = Outcome.returned 1 ⟨false⟩ ∧
    (exec ([Stmt.action (fun n => n + 1)]
        ++ Stmt.assertTrue (fun _ => false) :: [Stmt.action (fun n => n + 5)])
        (0 : Nat) freshResult).result.success = false :=
  claim_C3 [Stmt.action (fun n => n + 1)] [Stmt.action (fun n => n + 5)]
    [Stmt.action (fun n => n + 5)] (fun _ => false) (fun _ => true)
    0 1 freshResult rfl rfl rfl

/-- Claim C4: when control reaches a FAIL, the case returns right there with
a failure result, whatever assertions succeeded earlier in the body (they
are part of the fallen-through part before the FAIL). -/
theorem claim_C4 {σ : Type} (pre rest : List (Stmt σ)) (s0 s : σ)
    (r : UnitFunctionResult)
    (hpre : exec pre s0 freshResult = .finished s r) :
    exec (pre ++ Stmt.fail :: rest) s0 freshResult = Outcome.returned s ⟨false⟩ ∧
    (exec (pre ++ Stmt.fail :: rest) s0 freshResult).result.success = false := by
  constructor <;> rw [exec_append, hpre] <;> simp [exec, Outcome.result]

/-- Witness for claim C4: an assert that succeeds, then FAIL, then a
statement that never runs. -/
theorem claim_C4_witness :
    exec ([Stmt.assertTrue (fun _ => true)]
        ++ Stmt.fail :: [Stmt.action (fun n => n + 100)]) (0 : Nat) freshResult
      = Outcome.returned 0 ⟨false⟩ ∧
    (exec ([Stmt.assertTrue (fun _ => true)]
        ++ Stmt.fail :: [Stmt.action (fun n => n + 100)]) (0 : Nat)
        freshResult).result.success = false :=
  claim_C4 [Stmt.assertTrue (fun _ => true)] [Stmt.action (fun n => n + 100)]
    0 0 freshResult rfl

/-- Claim C5: the driver hands every case a freshly constructed result whose
success field is initialized true, and a body that performs no terminal
action returns it untouched, so the case is recorded as a pass and
contributes no failure. -/
theorem claim_C5 {σ : Type} (stmts : List (Stmt σ)) (init : σ) (name : String)
    (h : ∀ stmt ∈ stmts, stmt.isAction = true) :
    freshResult.success = true ∧
    (bodyFun stmts init freshResult).success = true ∧
    failuresOf [(name, bodyFun stmts init)] = [] := by
  have hres : (bodyFun stmts init) freshResult = freshResult :=
    exec_actions stmts h init freshResult
  have hsucc : (bodyFun stmts init freshResult).success = true := by
    rw [hres]; rfl
  have hrun : failuresOf [(name, bodyFun stmts init)] = [] := by
    show (runLoop [(name, bodyFun stmts init)]).2 = []
    simp [runLoop, hsucc]
  exact ⟨rfl, hsucc, hrun⟩

/-- Witness for claim C5: a body consisting of one plain action. -/
theorem claim_C5_witness :
    freshResult.success = true ∧
    (bodyFun [Stmt.action (fun n => n + 1)] (0 : Nat) freshResult).success = true ∧
    failuresOf [("A", bodyFun [Stmt.action (fun n => n + 1)] (0 : Nat))] = [] :=
  claim_C5 [Stmt.action (fun n => n + 1)] 0 "A"
    (by intro stmt hst; rw [List.mem_singleton] at hst; subst hst; rfl)

/-- Claim C6: the catalog built by any sequence of registrations has its
keys in strictly increasing lexicographic order, and the driver loop visits
exactly the catalog entries in that order. -/
theorem claim_C6 (regs : List (String × UnitFunction)) :
    List.Pairwise (fun a b : String => a < b) (runOrder (buildCatalog regs)) ∧
    runOrder (buildCatalog regs) = (buildCatalog regs).map Prod.fst := by
  refine ⟨?_, runOrder_eq_map _⟩
  rw [runOrder_eq_map]
  exact List.Pairwise.map Prod.fst (fun a b hab => hab) (keysSorted_buildCatalog regs)

/-- Claim C7: a conditional assert whose expected polarity holds at
evaluation time is transparent: execution continues with the remaining
statements from the same local state and the same result record, so the
assert has no effect on the recorded result. -/
theorem claim_C7 {σ : Type} (rest1 rest2 : List (Stmt σ)) (c1 c2 : σ → Bool)
    (s : σ) (r : UnitFunctionResult)
    (h1 : c1 s = true) (h2 : c2 s = false) :
    exec (Stmt.assertTrue c1 :: rest1) s r = exec rest1 s r ∧
    exec (Stmt.assertFalse c2 :: rest2) s r = exec rest2 s r := by
  constructor <;> simp [exec, h1, h2]

/-- Witness for claim C7: a holding assert of each polarity in front of a
FAIL statement; execution continues into the FAIL in both cases. -/
theorem claim_C7_witness :
    exec (Stmt.assertTrue (fun _ => true) :: [Stmt.fail]) (0 : Nat) freshResult
      = exec [Stmt.fail] (0 : Nat) freshResult ∧
    exec (Stmt.assertFalse (fun _ => false) :: [Stmt.fail]) (0 : Nat) freshResult
      = exec [Stmt.fail] (0 : Nat) freshResult :=
  claim_C7 [Stmt.fail] [Stmt.fail] (fun _ => true) (fun _ => false) 0 freshResult rfl rfl

/-- Claim C8: running twice over the same tester state gives the same
returned triple and the same per-case outcomes; the test functions of the
embedding are deterministic functions of the result record handed in, and
the first run hands the second an unchanged catalog. -/
theorem claim_C8 (t : UnitTester) :
    (RunST t).1 = (RunST (RunST t).2).1 ∧
    caseOutcomes (RunST (RunST t).2).2.unitfunction_map_
      = caseOutcomes t.unitfunction_map_ :=
  ⟨rfl, rfl⟩

/-- Claim C9: the failure list and the per-case outcomes of a concatenated
catalog split as the concatenation of the two parts, and each outcome is a
function of its own entry applied to a fresh result, so one case has no
effect on how later cases execute; Run leaves the tester state unchanged. -/
theorem claim_C9 (pre post : Catalog) (t : UnitTester) :
    failuresOf (pre ++ post) = failuresOf pre ++ failuresOf post ∧
    caseOutcomes (pre ++ post) = caseOutcomes pre ++ caseOutcomes post ∧
    caseOutcomes (pre ++ post)
      = (pre ++ post).map (fun u => (u.1, (u.2 freshResult).success)) ∧
    (RunST t).2 = t := by
  refine ⟨runLoop_failures_append pre post, ?_, caseOutcomes_eq_map _, rfl⟩
  rw [caseOutcomes_eq_map, caseOutcomes_eq_map, caseOutcomes_eq_map, List.map_append]

/-- Claim C10: over the empty catalog Run returns true, collects no failure
and prints the all-tests-passed message. -/
theorem claim_C10 :
    (Run ([] : Catalog)).1 = true ∧ (Run ([] : Catalog)).2.1 = [] ∧
    "[    ] All tests passed" ∈ (Run ([] : Catalog)).2.2 := by
  refine ⟨rfl, rfl, ?_⟩
  simp [Run, runLoop, summaryLines]

end Microunit
